import Mathlib

/-!
Verification development for `coalib/parsing/StringProcessing.py`.

The source module offers four operations built on Python's `re` engine:
`search_for`, `unescaped_split`, `escaped_split` and
`unescaped_search_in_between`.  Texts are embedded as `List Char`
(Python strings are immutable character sequences; `s[a:b]` becomes
`pySlice`, `s[a:]` becomes `List.drop`).

The `re` engine is an external collaborator of the source module, so it is
embedded at the granularity the source uses it:

* `escaped_split` searches for the fixed pattern
  `(.*?)(?<!\\)((?:\\\\)*)` + pattern (with `re.DOTALL`), for a delimiter
  pattern.  We embed this search for a literal delimiter string `D`:
  because the pattern starts with the unanchored lazy `(.*?)` (and `.`
  matches every character under DOTALL), a match of the whole pattern
  exists starting at the scan position iff one exists at all, and the
  engine commits to the shortest group-1; after group 1 the engine checks
  the negative lookbehind (the preceding character is not `\`), then
  greedily consumes pairs of backslashes `((?:\\\\)*)` — maximal pair
  count first, backtracking downwards — and finally the delimiter.
  `matchAtPos`/`searchEscFrom` implement exactly this search order.

* `unescaped_split` and `unescaped_search_in_between` pass user patterns
  through `re.split`/`re.finditer`/`re.search`.  For those we embed a small
  backtracking engine (`mrun`) over a pattern syntax `RE` covering the
  constructs the claims use (literals, alternation, capturing groups and
  the lazy `(.*?)` that the source inserts), with Python's left-to-right
  group numbering and leftmost-shortest preference order.

* `search_for` itself is generic over the compiled pattern, embodied by the
  `Matcher` structure (`search text pos` models `compiled.search(text, pos)`).
-/

abbrev Str := List Char

/-- Python slicing `s[a:b]` on the embedded text. -/
def pySlice (text : Str) (a b : Nat) : Str := (text.drop a).take (b - a)

/-- Length of the maximal run of escape characters (backslashes) ending just
before offset `c`: `text[c-r .. c-1]` are all `\` and either `c-r = 0` or
`text[c-r-1]` is not `\`. -/
def escRun (text : Str) : Nat → Nat
  | 0 => 0
  | c + 1 => if text[c]? = some '\\' then escRun text c + 1 else 0

/-- Number of leading backslashes of a list. -/
def countLeadEsc : Str → Nat
  | [] => 0
  | c :: rest => if c = '\\' then countLeadEsc rest + 1 else 0

/-- The literal delimiter `D` occurs in `text` at offset `c`. -/
def occursAt (D text : Str) (c : Nat) : Bool := D.isPrefixOf (text.drop c)

/-- A delimiter occurrence that the escape-parity rule treats as genuine:
the maximal escape run ending right before it has even length. -/
def genuineAt (D text : Str) (c : Nat) : Bool :=
  occursAt D text c && decide (escRun text c % 2 = 0)

/-- The greedy `((?:\\\\)*)` subpattern followed by the delimiter, starting
at offset `p`: try `k` backslash pairs, maximal `k` first, then backtrack
to fewer pairs; succeed at the offset where the delimiter itself matches. -/
def tryPairs (D text : Str) (p : Nat) : Nat → Option Nat
  | 0 => if occursAt D text p then some p else none
  | k + 1 =>
    if occursAt D text (p + 2 * (k + 1)) then some (p + 2 * (k + 1))
    else tryPairs D text p k

/-- The negative lookbehind `(?<!\\)` at offset `p`. -/
def lookOk (text : Str) (p : Nat) : Bool :=
  decide (p = 0) || !(decide (text[p - 1]? = some '\\'))

/-- One attempt of the tail `(?<!\\)((?:\\\\)*)D` of the escape-aware pattern
with group 1 ending at offset `p`: lookbehind, then greedy backslash pairs
(at most `⌊run/2⌋` pairs are available), then the literal delimiter.
Returns the offset where the delimiter starts (= end of group 2). -/
def matchAtPos (D text : Str) (p : Nat) : Option Nat :=
  if lookOk text p then tryPairs D text p (countLeadEsc (text.drop p) / 2)
  else none

/-- `re.search` of `(.*?)(?<!\\)((?:\\\\)*)D` from scan position `pos`:
the lazy group 1 is enlarged one character at a time, so the first end
offset `p ≥ pos` of group 1 whose tail attempt succeeds wins.  Returns
`(end of group 1, start of the delimiter)`.  `fuel` bounds the scan; the
callers pass `text.length + 1 - pos`, which covers every candidate. -/
def searchEscFrom (D text : Str) : Nat → Nat → Option (Nat × Nat)
  | _, 0 => none
  | pos, fuel + 1 =>
    match matchAtPos D text pos with
    | some c => some (pos, c)
    | none => searchEscFrom D text (pos + 1) fuel

/-- A match object of the escape-aware pattern: match start (= scan
position, since the pattern begins with the unanchored lazy `(.*?)`),
end of group 1, end of group 2 (= start of the delimiter), match end. -/
structure EscMatch where
  mstart : Nat
  g1e : Nat
  g2e : Nat
  mEnd : Nat
deriving Repr, DecidableEq

/-- `compiled.search(text, pos)` for the escape-aware combined pattern. -/
def escSearch (D : Str) (text : Str) (pos : Nat) : Option EscMatch :=
  match searchEscFrom D text pos (text.length + 1 - pos) with
  | none => none
  | some (p, c) => some ⟨pos, p, c, c + D.length⟩

/-- A compiled pattern of the collaborator `re` engine: `search text pos`
models `compiled.search(text, pos)`, `mstart`/`mend` model
`m.start()`/`m.end()` of a match object `m`. -/
structure Matcher (M : Type) where
  search : Str → Nat → Option M
  mstart : M → Nat
  mend : M → Nat

def escMatcher (D : Str) : Matcher EscMatch :=
  ⟨escSearch D, EscMatch.mstart, EscMatch.mEnd⟩

/-- The result of `search_for`: either a list of match objects or — in the
negative-limit branch — the raw input text, which has a different type. -/
inductive SearchResult (M : Type) where
  | matches (l : List M)
  | raw (s : Str)
deriving DecidableEq

/-- The `max_matches > 0` loop of `search_for`: `rxc.search(string, pos)`
at most `n` times, continuing at the end offset of each match. -/
def boundedSearch {M : Type} (mr : Matcher M) (text : Str) : Nat → Nat → List M
  | 0, _ => []
  | n + 1, pos =>
    match mr.search text pos with
    | none => []
    | some m => m :: boundedSearch mr text n (mr.mend m)

/-- `re.finditer`: all non-overlapping matches, scanning left to right;
after an empty match the scan position advances by one extra character
(CPython's scanner rule).  `fuel` bounds the iteration; `search_for`
passes `text.length + 1`, enough for every matcher whose matches start at
or after the scan position. -/
def finditerGo {M : Type} (mr : Matcher M) (text : Str) : Nat → Nat → List M
  | 0, _ => []
  | fuel + 1, pos =>
    match mr.search text pos with
    | none => []
    | some m =>
      m :: finditerGo mr text fuel
        (if mr.mend m = mr.mstart m then mr.mend m + 1 else mr.mend m)

/-- `search_for(pattern, string, max_matches, flags)`: `max_matches = 0`
uses `re.finditer`; `max_matches > 0` loops `rxc.search` with a moving
position; a negative `max_matches` returns the unprocessed input string. -/
def search_for {M : Type} (mr : Matcher M) (string : Str) (max_matches : Int) :
    SearchResult M :=
  if max_matches = 0 then .matches (finditerGo mr string (string.length + 1) 0)
  else if 0 < max_matches then .matches (boundedSearch mr string max_matches.toNat 0)
  else .raw string

/-- The `for item in matches` loop of `escaped_split`: for each match,
unless empty segments are being removed and group 1 is empty, append
group 1 concatenated with group 2 (group 2 of this pattern always
participates, so the `is not None` guard in the source always holds) and
update `last_pos` to the match end.  Returns the collected segments and
the final `last_pos`. -/
def escSplitLoop (text : Str) (remove_empty : Bool) :
    List EscMatch → Nat → List Str × Nat
  | [], last_pos => ([], last_pos)
  | m :: rest, last_pos =>
    if !remove_empty || (pySlice text m.mstart m.g1e).length ≠ 0 then
      let seg := pySlice text m.mstart m.g1e ++ pySlice text m.g1e m.g2e
      let pr := escSplitLoop text remove_empty rest m.mEnd
      (seg :: pr.1, pr.2)
    else
      escSplitLoop text remove_empty rest last_pos

/-- `escaped_split(pattern, string, max_split, remove_empty_matches)` for a
literal delimiter `pattern`: search for `(.*?)(?<!\\)((?:\\\\)*)` + pattern
through `search_for`, collect `group(1) + group(2)` of every match and
append the unprocessed rest of the string.  With a negative `max_split`,
`search_for` hands back the raw string; the `for` loop then iterates over
its characters and `item.group(1)` raises `AttributeError` on the first
character (under either empty-segment policy); only for the empty string
does the loop not run, and the rest-of-string append still happens. -/
def escaped_split (pattern string : Str) (max_split : Int)
    (remove_empty_matches : Bool) : Except String (List Str) :=
  match search_for (escMatcher pattern) string max_split with
  | .matches ms =>
    let pr := escSplitLoop string remove_empty_matches ms 0
    let rest := string.drop pr.2
    .ok (pr.1 ++ (if !remove_empty_matches || rest.length ≠ 0 then [rest] else []))
  | .raw s =>
    match s with
    | [] =>
      .ok (if !remove_empty_matches || (List.drop 0 s).length ≠ 0
           then [List.drop 0 s] else [])
    | _ :: _ => .error ("AttributeError")

/-- Reference count of the delimiter occurrences that `escaped_split`
treats as genuine: scan left to right, count each occurrence with an even
escape run and resume after it, skip one character otherwise.  `fuel`
bounds the scan (`text.length + 1 - pos` suffices from position `pos`). -/
def occCount (D text : Str) : Nat → Nat → Nat
  | 0, _ => 0
  | fuel + 1, pos =>
    if genuineAt D text pos then 1 + occCount D text fuel (pos + D.length)
    else occCount D text fuel (pos + 1)

/-- Segments interleaved with the delimiter: the text that a segment list
reconstructs when `D` is reinserted at every split point. -/
def joinD (D : Str) : List Str → Str
  | [] => []
  | [s] => s
  | s :: rest => s ++ D ++ joinD D rest

/-! ### The pattern engine for user-supplied patterns

`unescaped_split` and `unescaped_search_in_between` hand user patterns to
`re`.  `RE` covers the constructs exercised by the specification: empty
pattern, `.` (with DOTALL), literal characters, concatenation, alternation
`|`, capturing groups `( )` and the lazy `(.*?)` star.  Group numbers are
assigned by textual position, left to right, starting at 1, exactly as in
Python. -/

inductive RE where
  | eps
  | anyChar
  | ch (c : Char)
  | cat (r1 r2 : RE)
  | alt (r1 r2 : RE)
  | grp (r : RE)
  | lazyStar (r : RE)
deriving Repr, DecidableEq

/-- `compiled.groups`: the number of capturing groups of a pattern. -/
def countGroups : RE → Nat
  | .eps => 0
  | .anyChar => 0
  | .ch _ => 0
  | .cat a b => countGroups a + countGroups b
  | .alt a b => countGroups a + countGroups b
  | .grp r => countGroups r + 1
  | .lazyStar r => countGroups r

/-- Node count of a pattern, used to bound the engine's recursion depth. -/
def reSize : RE → Nat
  | .eps => 1
  | .anyChar => 1
  | .ch _ => 1
  | .cat a b => reSize a + reSize b + 1
  | .alt a b => reSize a + reSize b + 1
  | .grp r => reSize r + 1
  | .lazyStar r => reSize r + 1

/-- Captured group spans, most recent write first: `(index, start, end)`. -/
abbrev Caps := List (Nat × Nat × Nat)

/-- Backtracking matcher: all ways the pattern can match starting at `pos`,
in the engine's preference order (head = the match the engine commits to).
`g0` is the number of capturing groups textually before this subpattern, so
a `grp` node receives index `g0 + 1`.  `alt` prefers its left branch;
`lazyStar` prefers zero iterations and never repeats an empty iteration.
`fuel` bounds the recursion depth. -/
def mrun (text : Str) : Nat → RE → Nat → Nat → Caps → List (Nat × Caps)
  | 0, _, _, _, _ => []
  | fuel + 1, re, g0, pos, caps =>
    match re with
    | .eps => [(pos, caps)]
    | .anyChar => if pos < text.length then [(pos + 1, caps)] else []
    | .ch c => if text[pos]? = some c then [(pos + 1, caps)] else []
    | .cat a b =>
      (mrun text fuel a g0 pos caps).flatMap
        (fun pc => mrun text fuel b (g0 + countGroups a) pc.1 pc.2)
    | .alt a b =>
      mrun text fuel a g0 pos caps ++ mrun text fuel b (g0 + countGroups a) pos caps
    | .grp r =>
      (mrun text fuel r (g0 + 1) pos caps).map
        (fun pc => (pc.1, (g0 + 1, pos, pc.1) :: pc.2))
    | .lazyStar r =>
      (pos, caps) ::
        (mrun text fuel r g0 pos caps).flatMap
          (fun pc => if pc.1 ≤ pos then [] else mrun text fuel (.lazyStar r) g0 pc.1 pc.2)

/-- Recursion-depth budget that lets `mrun` explore every match of `r`
against `text` without the fuel cutting a branch short. -/
def mrunFuel (r : RE) (text : Str) : Nat := (reSize r + 1) * (text.length + 2)

/-- A match object of the engine: start and end offset plus captured
group spans. -/
structure RMatch where
  mstart : Nat
  mEnd : Nat
  caps : Caps
deriving Repr, DecidableEq

/-- `compiled.search(text, pos)`: try each start offset from `pos` upward
and commit to the engine's preferred match at the first offset that has
any.  `fuel` bounds the start-offset scan. -/
def reSearchGo (r : RE) (text : Str) : Nat → Nat → Option RMatch
  | 0, _ => none
  | fuel + 1, pos =>
    match mrun text (mrunFuel r text) r 0 pos [] with
    | [] => reSearchGo r text fuel (pos + 1)
    | pc :: _ => some ⟨pos, pc.1, pc.2⟩

def reMatcher (r : RE) : Matcher RMatch :=
  ⟨fun text pos => reSearchGo r text (text.length + 1 - pos) pos,
   RMatch.mstart, RMatch.mEnd⟩

/-- `m.group(i)` as a span: the most recent write to group `i`. -/
def capFind (caps : Caps) (i : Nat) : Option (Nat × Nat) :=
  (caps.find? (fun e => e.1 = i)).map (fun e => (e.2.1, e.2.2))

/-- `m.group(i)`: the captured substring, `none` when the group did not
participate in the match. -/
def mgroup (text : Str) (m : RMatch) (i : Nat) : Option Str :=
  (capFind m.caps i).map (fun ab => pySlice text ab.1 ab.2)

/-- A pattern matching one literal string. -/
def litRE : Str → RE
  | [] => .eps
  | c :: cs => .cat (.ch c) (litRE cs)

/-- The combined pattern `begin + r"(.*?)" + end` that
`unescaped_search_in_between` builds by string concatenation. -/
def combineBetween (b e : RE) : RE :=
  .cat b (.cat (.grp (.lazyStar .anyChar)) e)

/-- `unescaped_search_in_between(begin, end, string, max_matches)`:
compile `begin` to learn its group count, search for the combined pattern
through `search_for` and return group `begin.groups + 1` of every match.
With a negative `max_matches`, `search_for` hands back the raw string;
iterating it yields characters and `item.group(...)` raises
`AttributeError` on the first one; only the empty string yields `[]`. -/
def unescaped_search_in_between (bg en : RE) (string : Str) (max_matches : Int) :
    Except String (List (Option Str)) :=
  match search_for (reMatcher (combineBetween bg en)) string max_matches with
  | .matches ms => .ok (ms.map (fun m => mgroup string m (countGroups bg + 1)))
  | .raw s =>
    match s with
    | [] => .ok []
    | _ :: _ => .error ("AttributeError")

/-- `re.split(pattern, string, maxsplit, re.DOTALL)` for a pattern without
capturing groups: cut at every match, scanning like `re.finditer`
(advancing one extra character after an empty match); `maxsplit = 0` is
unlimited, a positive `maxsplit` stops after that many splits, and with a
negative `maxsplit` the loop condition `n < maxsplit` fails at once, so no
split happens.  The unsplit remainder is always appended. -/
def reSplitGo (r : RE) (text : Str) (maxsplit : Int) :
    Nat → Nat → Nat → Int → List Str
  | 0, _, last, _ => [text.drop last]
  | fuel + 1, pos, last, n =>
    if maxsplit = 0 || decide (n < maxsplit) then
      match reSearchGo r text (text.length + 1 - pos) pos with
      | none => [text.drop last]
      | some m =>
        pySlice text last m.mstart ::
          reSplitGo r text maxsplit fuel
            (if m.mEnd = m.mstart then m.mEnd + 1 else m.mEnd) m.mEnd (n + 1)
    else [text.drop last]

def reSplit (r : RE) (text : Str) (maxsplit : Int) : List Str :=
  reSplitGo r text maxsplit (text.length + 1) 0 0 0

/-- `unescaped_split(pattern, string, max_split, remove_empty_matches)`:
`re.split` and, when requested, `filter(bool, ...)`, which keeps exactly
the non-empty segments in order. -/
def unescaped_split (pattern : RE) (string : Str) (max_split : Int)
    (remove_empty_matches : Bool) : List Str :=
  let m := reSplit pattern string max_split
  if remove_empty_matches then m.filter (fun s => decide (s ≠ [])) else m

/-! ### Ground facts: runs of escape characters -/

theorem countLeadEsc_lt (L : Str) : ∀ i, i < countLeadEsc L → L[i]? = some '\\' := by
  induction L with
  | nil => intro i h; simp [countLeadEsc] at h
  | cons c rest ih =>
    intro i h
    by_cases hc : c = '\\'
    · subst hc
      simp [countLeadEsc] at h
      cases i with
      | zero => simp
      | succ j => simpa using ih j (by omega)
    · simp [countLeadEsc, hc] at h

theorem countLeadEsc_stop (L : Str) : L[countLeadEsc L]? ≠ some '\\' := by
  induction L with
  | nil => simp [countLeadEsc]
  | cons c rest ih =>
    by_cases hc : c = '\\'
    · subst hc; simpa [countLeadEsc] using ih
    · simp [countLeadEsc, hc]

theorem countLeadEsc_eq_of (L : Str) (n : Nat)
    (h1 : ∀ i, i < n → L[i]? = some '\\') (h2 : L[n]? ≠ some '\\') :
    countLeadEsc L = n := by
  induction L generalizing n with
  | nil =>
    cases n with
    | zero => rfl
    | succ m => exact absurd (h1 0 (by omega)) (by simp)
  | cons c rest ih =>
    cases n with
    | zero =>
      have hc : c ≠ '\\' := by intro hc; exact h2 (by simp [hc])
      simp [countLeadEsc, hc]
    | succ m =>
      have hc : c = '\\' := by have := h1 0 (by omega); simpa using this
      subst hc
      have hr := ih m (fun i hi => by simpa using h1 (i + 1) (by omega)) (by simpa using h2)
      simp [countLeadEsc, hr]

theorem escRun_le (text : Str) : ∀ c, escRun text c ≤ c := by
  intro c
  induction c with
  | zero => simp [escRun]
  | succ c ih =>
    rw [escRun]
    split <;> omega

theorem escRun_all (text : Str) :
    ∀ c i, c - escRun text c ≤ i → i < c → text[i]? = some '\\' := by
  intro c
  induction c with
  | zero => intro i h1 h2; omega
  | succ c ih =>
    intro i h1 h2
    by_cases hc : text[c]? = some '\\'
    · rw [escRun, if_pos hc] at h1
      rcases Nat.lt_succ_iff_lt_or_eq.mp h2 with h | h
      · exact ih i (by omega) h
      · subst h; exact hc
    · rw [escRun, if_neg hc] at h1
      omega

theorem escRun_stop (text : Str) :
    ∀ c, 0 < c - escRun text c → text[c - escRun text c - 1]? ≠ some '\\' := by
  intro c
  induction c with
  | zero => intro h; omega
  | succ c ih =>
    intro h
    by_cases hc : text[c]? = some '\\'
    · rw [escRun, if_pos hc] at h ⊢
      have hle := escRun_le text c
      have he : c + 1 - (escRun text c + 1) = c - escRun text c := by omega
      rw [he] at h ⊢
      exact ih h
    · rw [escRun, if_neg hc]
      have he : c + 1 - 0 - 1 = c := by omega
      rw [he]
      exact hc

theorem escRun_eq_of (text : Str) :
    ∀ r c, r ≤ c → (∀ i, c - r ≤ i → i < c → text[i]? = some '\\') →
    (c - r = 0 ∨ text[c - r - 1]? ≠ some '\\') → escRun text c = r := by
  intro r
  induction r with
  | zero =>
    intro c _ _ h3
    cases c with
    | zero => rfl
    | succ c' =>
      rcases h3 with h3 | h3
      · omega
      · have he : c' + 1 - 0 - 1 = c' := by omega
        rw [he] at h3
        rw [escRun, if_neg h3]
  | succ r ih =>
    intro c hrc h2 h3
    cases c with
    | zero => omega
    | succ c' =>
      have hc : text[c']? = some '\\' := h2 c' (by omega) (by omega)
      rw [escRun, if_pos hc]
      have hr : escRun text c' = r := by
        apply ih c' (by omega)
        · intro i hi1 hi2
          exact h2 i (by omega) (by omega)
        · rcases h3 with h3 | h3
          · omega
          · right
            have he : c' + 1 - (r + 1) - 1 = c' - r - 1 := by omega
            rw [he] at h3
            exact h3
      omega

/-! ### Ground facts: literal delimiter occurrences -/

theorem occursAt_iff (D text : Str) (c : Nat) :
    occursAt D text c = true ↔ ∃ t, D ++ t = text.drop c := by
  rw [occursAt, List.isPrefixOf_iff_prefix]
  exact Iff.rfl

theorem occursAt_getElem (D text : Str) (c : Nat) (h : occursAt D text c = true) :
    ∀ i, i < D.length → text[c + i]? = D[i]? := by
  rcases (occursAt_iff D text c).mp h with ⟨t, ht⟩
  intro i hi
  have h1 : text[c + i]? = (text.drop c)[i]? := (List.getElem?_drop text c i).symm
  rw [h1, ← ht]
  simp [List.getElem?_append, hi]

theorem occursAt_mem (D text : Str) (c i : Nat) (h : occursAt D text c = true)
    (hi : i < D.length) : ∃ d, text[c + i]? = some d ∧ d ∈ D := by
  refine ⟨D[i], ?_, List.getElem_mem hi⟩
  rw [occursAt_getElem D text c h i hi]
  exact List.getElem?_eq_getElem hi

theorem occursAt_len_le (D text : Str) (c : Nat) (h : occursAt D text c = true)
    (hne : D ≠ []) : c + D.length ≤ text.length := by
  rcases (occursAt_iff D text c).mp h with ⟨t, ht⟩
  have hlen : D.length + t.length = text.length - c := by
    have := congrArg List.length ht
    simpa using this
  by_cases hc : c ≤ text.length
  · omega
  · have hd : text.drop c = [] := List.drop_eq_nil_of_le (by omega)
    rw [hd] at ht
    have hz : D.length + t.length = 0 := by
      have := congrArg List.length ht
      simpa using this
    have : 0 < D.length := List.length_pos.mpr hne
    omega

theorem occursAt_lt_length (D text : Str) (c : Nat) (h : occursAt D text c = true)
    (hne : D ≠ []) : c < text.length := by
  have h1 := occursAt_len_le D text c h hne
  have h2 : 0 < D.length := List.length_pos.mpr hne
  omega

theorem occursAt_pySlice (D text : Str) (c : Nat) (h : occursAt D text c = true) :
    pySlice text c (c + D.length) = D := by
  rcases (occursAt_iff D text c).mp h with ⟨t, ht⟩
  rw [pySlice, ← ht]
  have he : c + D.length - c = D.length := by omega
  rw [he, List.take_left]

/-! ### Characterizing the escape-aware pattern attempt at one offset -/

theorem tryPairs_some (D text : Str) (p : Nat) :
    ∀ k c, tryPairs D text p k = some c →
    ∃ j, j ≤ k ∧ c = p + 2 * j ∧ occursAt D text c = true := by
  intro k
  induction k with
  | zero =>
    intro c h
    rw [tryPairs] at h
    split at h
    next ho =>
      cases h
      exact ⟨0, by omega, by omega, by simpa using ho⟩
    next => cases h
  | succ k ih =>
    intro c h
    rw [tryPairs] at h
    split at h
    next ho =>
      cases h
      exact ⟨k + 1, Nat.le_refl _, rfl, ho⟩
    next =>
      rcases ih c h with ⟨j, hj, hc, ho⟩
      exact ⟨j, by omega, hc, ho⟩

theorem tryPairs_hit (D text : Str) (p : Nat) :
    ∀ k, occursAt D text (p + 2 * k) = true → tryPairs D text p k = some (p + 2 * k) := by
  intro k h
  cases k with
  | zero =>
    rw [tryPairs, if_pos (by simpa using h)]
    simp
  | succ k => rw [tryPairs, if_pos h]

theorem occursDelim_not_esc (D text : Str) (c : Nat) (hD : '\\' ∉ D) (hne : D ≠ [])
    (h : occursAt D text c = true) : text[c]? ≠ some '\\' := by
  rcases occursAt_mem D text c 0 h (List.length_pos.mpr hne) with ⟨d, hd, hmem⟩
  rw [Nat.add_zero] at hd
  rw [hd]
  intro heq
  have hdd : d = '\\' := by injection heq
  exact hD (hdd ▸ hmem)

theorem matchAtPos_some_iff (D text : Str) (p c : Nat) (hD : '\\' ∉ D) (hne : D ≠ []) :
    matchAtPos D text p = some c ↔
      lookOk text p = true ∧ countLeadEsc (text.drop p) % 2 = 0 ∧
      c = p + countLeadEsc (text.drop p) ∧ occursAt D text c = true := by
  constructor
  · intro h
    rw [matchAtPos] at h
    split at h
    next hlo =>
      rcases tryPairs_some D text p _ c h with ⟨hj, hjle, hc, ho⟩
      have hge : ¬ (2 * hj < countLeadEsc (text.drop p)) := by
        intro hlt
        have h1 : (text.drop p)[2 * hj]? = some '\\' := countLeadEsc_lt _ _ hlt
        rw [List.getElem?_drop] at h1
        exact occursDelim_not_esc D text c hD hne ho (hc ▸ h1)
      exact ⟨hlo, by omega, by omega, ho⟩
    next => cases h
  · rintro ⟨hlo, hpar, hc, ho⟩
    rw [matchAtPos, if_pos hlo]
    have ho' : occursAt D text (p + 2 * (countLeadEsc (text.drop p) / 2)) = true := by
      have heq : p + 2 * (countLeadEsc (text.drop p) / 2) = c := by omega
      rw [heq]
      exact ho
    rw [tryPairs_hit D text p _ ho']
    congr 1
    omega

theorem matchAtPos_genuine (D text : Str) (p c : Nat) (hD : '\\' ∉ D) (hne : D ≠ [])
    (h : matchAtPos D text p = some c) :
    genuineAt D text c = true ∧ escRun text c = c - p ∧ p ≤ c ∧ lookOk text p = true := by
  rcases (matchAtPos_some_iff D text p c hD hne).mp h with ⟨hlo, hpar, hc, ho⟩
  have hrun : escRun text c = countLeadEsc (text.drop p) := by
    apply escRun_eq_of text (countLeadEsc (text.drop p)) c (by omega)
    · intro i h1 h2
      have hi : (text.drop p)[i - p]? = some '\\' := countLeadEsc_lt _ _ (by omega)
      rw [List.getElem?_drop] at hi
      have he : p + (i - p) = i := by omega
      rwa [he] at hi
    · have he : c - countLeadEsc (text.drop p) = p := by omega
      rw [he]
      simpa [lookOk] using hlo
  refine ⟨?_, by omega, by omega, hlo⟩
  simp only [genuineAt, ho, hrun, Bool.true_and, decide_eq_true_eq]
  exact hpar

theorem matchAtPos_lt_length (D text : Str) (p c : Nat) (hne : D ≠ [])
    (h : matchAtPos D text p = some c) : p ≤ c ∧ c < text.length := by
  rw [matchAtPos] at h
  split at h
  · rcases tryPairs_some D text p _ c h with ⟨j, _, hc, ho⟩
    exact ⟨by omega, occursAt_lt_length D text c ho hne⟩
  · cases h

theorem genuine_matchAtPos (D text : Str) (c : Nat) (hD : '\\' ∉ D) (hne : D ≠ [])
    (h : genuineAt D text c = true) :
    matchAtPos D text (c - escRun text c) = some c := by
  have ho : occursAt D text c = true := by
    simp [genuineAt] at h
    exact h.1
  have hpar : escRun text c % 2 = 0 := by
    simp [genuineAt] at h
    exact h.2
  have hrc : escRun text c ≤ c := escRun_le text c
  have hf : countLeadEsc (text.drop (c - escRun text c)) = escRun text c := by
    apply countLeadEsc_eq_of
    · intro i hi
      rw [List.getElem?_drop]
      exact escRun_all text c (c - escRun text c + i) (by omega) (by omega)
    · rw [List.getElem?_drop]
      have he : c - escRun text c + escRun text c = c := by omega
      rw [he]
      exact occursDelim_not_esc D text c hD hne ho
  have hlo : lookOk text (c - escRun text c) = true := by
    simp only [lookOk, Bool.or_eq_true, decide_eq_true_eq, Bool.not_eq_true',
      decide_eq_false_iff_not]
    by_cases hp0 : c - escRun text c = 0
    · exact Or.inl hp0
    · exact Or.inr (escRun_stop text c (by omega))
  apply (matchAtPos_some_iff D text (c - escRun text c) c hD hne).mpr
  exact ⟨hlo, by omega, by omega, ho⟩

theorem genuine_lt_start (D text : Str) (c1 c2 : Nat) (hD : '\\' ∉ D) (hne : D ≠ [])
    (h1 : occursAt D text c1 = true) (hlt : c1 < c2) : c1 < c2 - escRun text c2 := by
  by_contra hle
  have hesc : text[c1]? = some '\\' := escRun_all text c2 c1 (by omega) hlt
  exact occursDelim_not_esc D text c1 hD hne h1 hesc

/-! ### Characterizing the scan of `re.search` for the escape-aware pattern -/

theorem searchEscFrom_some (D text : Str) :
    ∀ fuel pos p c, searchEscFrom D text pos fuel = some (p, c) →
      pos ≤ p ∧ matchAtPos D text p = some c ∧
      ∀ q, pos ≤ q → q < p → matchAtPos D text q = none := by
  intro fuel
  induction fuel with
  | zero => intro pos p c h; cases h
  | succ fuel ih =>
    intro pos p c h
    rw [searchEscFrom] at h
    cases hm : matchAtPos D text pos with
    | some c' =>
      rw [hm] at h
      cases h
      exact ⟨Nat.le_refl _, hm, fun q hq1 hq2 => absurd hq1 (by omega)⟩
    | none =>
      rw [hm] at h
      rcases ih (pos + 1) p c h with ⟨h1, h2, h3⟩
      refine ⟨by omega, h2, fun q hq1 hq2 => ?_⟩
      rcases Nat.eq_or_lt_of_le hq1 with he | hlt'
      · rw [← he]
        exact hm
      · exact h3 q (by omega) hq2

theorem searchEscFrom_none (D text : Str) :
    ∀ fuel pos, searchEscFrom D text pos fuel = none →
      ∀ q, pos ≤ q → q < pos + fuel → matchAtPos D text q = none := by
  intro fuel
  induction fuel with
  | zero => intro pos h q h1 h2; omega
  | succ fuel ih =>
    intro pos h q h1 h2
    rw [searchEscFrom] at h
    cases hm : matchAtPos D text pos with
    | some c' =>
      rw [hm] at h
      cases h
    | none =>
      rw [hm] at h
      rcases Nat.eq_or_lt_of_le h1 with he | hlt
      · rw [← he]
        exact hm
      · exact ih (pos + 1) h q (by omega) (by omega)

theorem searchEscFrom_none_all (D text : Str) (pos : Nat) (hne : D ≠ [])
    (h : searchEscFrom D text pos (text.length + 1 - pos) = none) :
    ∀ q, pos ≤ q → matchAtPos D text q = none := by
  intro q hq
  cases hm : matchAtPos D text q with
  | none => rfl
  | some c =>
    rcases matchAtPos_lt_length D text q c hne hm with ⟨h1, h2⟩
    have hnone := searchEscFrom_none D text _ pos h q hq (by omega)
    rw [hnone] at hm
    cases hm

/-! ### The invariant at the resume position and `escSearch` -/

/-- No escape run crosses the scan position: we are either at the start of
the text or right after a character that is not the escape character (in
`escaped_split` the previous character is the last character of the
delimiter occurrence just consumed). -/
def noEscBefore (text : Str) (pos : Nat) : Prop :=
  pos = 0 ∨ text[pos - 1]? ≠ some '\\'

theorem escRun_le_of_inv (text : Str) (pos c : Nat) (hInv : noEscBefore text pos)
    (hpc : pos ≤ c) : escRun text c ≤ c - pos := by
  by_cases h0 : pos = 0
  · subst h0
    have := escRun_le text c
    omega
  · rcases hInv with h0' | hesc
    · exact absurd h0' h0
    · by_contra hgt
      apply hesc
      exact escRun_all text c (pos - 1) (by omega) (by omega)

theorem escSearch_some_char (D text : Str) (pos : Nat) (m : EscMatch)
    (hD : '\\' ∉ D) (hne : D ≠ []) (hInv : noEscBefore text pos)
    (h : escSearch D text pos = some m) :
    m.mstart = pos ∧ pos ≤ m.g1e ∧ m.g1e ≤ m.g2e ∧
    m.mEnd = m.g2e + D.length ∧
    genuineAt D text m.g2e = true ∧ m.g1e = m.g2e - escRun text m.g2e ∧
    (∀ q, pos ≤ q → q < m.g2e → genuineAt D text q = false) := by
  rw [escSearch] at h
  cases hs : searchEscFrom D text pos (text.length + 1 - pos) with
  | none =>
    rw [hs] at h
    cases h
  | some pc =>
    rcases pc with ⟨p, c⟩
    rw [hs] at h
    cases h
    dsimp only
    rcases searchEscFrom_some D text _ pos p c hs with ⟨h1, h2, h3⟩
    rcases matchAtPos_genuine D text p c hD hne h2 with ⟨hg, hr, hpc, _⟩
    refine ⟨rfl, h1, hpc, rfl, hg, by omega, ?_⟩
    intro q hq1 hq2
    cases hqg : genuineAt D text q with
    | false => rfl
    | true =>
      have hocc : occursAt D text q = true := by
        simp [genuineAt] at hqg
        exact hqg.1
      have hlt : q < c - escRun text c := genuine_lt_start D text q c hD hne hocc hq2
      have hple : escRun text q ≤ q - pos := escRun_le_of_inv text pos q hInv hq1
      have hm := genuine_matchAtPos D text q hD hne hqg
      have hnone : matchAtPos D text (q - escRun text q) = none := by
        apply h3
        · omega
        · omega
      rw [hnone] at hm
      cases hm

theorem escSearch_none_char (D text : Str) (pos : Nat)
    (hD : '\\' ∉ D) (hne : D ≠ []) (hInv : noEscBefore text pos)
    (h : escSearch D text pos = none) :
    ∀ q, pos ≤ q → genuineAt D text q = false := by
  rw [escSearch] at h
  cases hs : searchEscFrom D text pos (text.length + 1 - pos) with
  | some pc =>
    rw [hs] at h
    cases h
  | none =>
    intro q hq
    cases hqg : genuineAt D text q with
    | false => rfl
    | true =>
      have hm := genuine_matchAtPos D text q hD hne hqg
      have hple : escRun text q ≤ q - pos := escRun_le_of_inv text pos q hInv hq
      have hnone := searchEscFrom_none_all D text pos hne hs (q - escRun text q) (by omega)
      rw [hnone] at hm
      cases hm

/-! ### The reference occurrence count -/

theorem genuineAt_false_ge (D text : Str) (pos : Nat) (hne : D ≠ [])
    (h : text.length ≤ pos) : genuineAt D text pos = false := by
  cases hg : genuineAt D text pos with
  | false => rfl
  | true =>
    have ho : occursAt D text pos = true := by
      simp [genuineAt] at hg
      exact hg.1
    have := occursAt_lt_length D text pos ho hne
    omega

theorem occCount_succ_true (D text : Str) (fuel pos : Nat)
    (h : genuineAt D text pos = true) :
    occCount D text (fuel + 1) pos = 1 + occCount D text fuel (pos + D.length) := by
  rw [occCount]
  simp [h]

theorem occCount_succ_false (D text : Str) (fuel pos : Nat)
    (h : genuineAt D text pos = false) :
    occCount D text (fuel + 1) pos = occCount D text fuel (pos + 1) := by
  rw [occCount]
  simp [h]

theorem occCount_zero (D text : Str) (hne : D ≠ []) :
    ∀ fuel pos, (∀ q, pos ≤ q → genuineAt D text q = false) →
    occCount D text fuel pos = 0 := by
  intro fuel
  induction fuel with
  | zero => intro pos _; rfl
  | succ fuel ih =>
    intro pos h
    rw [occCount_succ_false D text fuel pos (h pos (Nat.le_refl _))]
    exact ih (pos + 1) (fun q hq => h q (by omega))

theorem occCount_stable (D text : Str) (hne : D ≠ []) :
    ∀ f1 f2 pos, text.length + 1 - pos ≤ f1 → text.length + 1 - pos ≤ f2 →
    occCount D text f1 pos = occCount D text f2 pos := by
  intro f1
  induction f1 with
  | zero =>
    intro f2 pos h1 h2
    rw [occCount_zero D text hne f2 pos
      (fun q hq => genuineAt_false_ge D text q hne (by omega))]
    rfl
  | succ f1 ih =>
    intro f2 pos h1 h2
    by_cases hp : text.length + 1 ≤ pos
    · rw [occCount_zero D text hne _ pos
        (fun q hq => genuineAt_false_ge D text q hne (by omega)),
        occCount_zero D text hne _ pos
        (fun q hq => genuineAt_false_ge D text q hne (by omega))]
    · have hf2 : ∃ f2', f2 = f2' + 1 := by
        cases f2 with
        | zero => omega
        | succ n => exact ⟨n, rfl⟩
      rcases hf2 with ⟨f2', rfl⟩
      have hD1 : 1 ≤ D.length := List.length_pos.mpr hne
      cases hg : genuineAt D text pos with
      | true =>
        rw [occCount_succ_true D text _ _ hg, occCount_succ_true D text _ _ hg]
        rw [ih f2' (pos + D.length) (by omega) (by omega)]
      | false =>
        rw [occCount_succ_false D text _ _ hg, occCount_succ_false D text _ _ hg]
        rw [ih f2' (pos + 1) (by omega) (by omega)]

theorem occCount_step (D text : Str) (hne : D ≠ []) :
    ∀ fuel pos c, text.length + 1 - pos ≤ fuel → pos ≤ c →
    genuineAt D text c = true →
    (∀ q, pos ≤ q → q < c → genuineAt D text q = false) →
    occCount D text fuel pos =
      1 + occCount D text (text.length + 1 - (c + D.length)) (c + D.length) := by
  intro fuel
  induction fuel with
  | zero =>
    intro pos c h1 h2 h3 _
    have hf := genuineAt_false_ge D text c hne (by omega)
    rw [hf] at h3
    cases h3
  | succ fuel ih =>
    intro pos c h1 h2 h3 h4
    have hD1 : 1 ≤ D.length := List.length_pos.mpr hne
    rcases Nat.eq_or_lt_of_le h2 with he | hlt
    · subst he
      rw [occCount_succ_true D text _ _ h3]
      congr 1
      exact occCount_stable D text hne fuel _ (pos + D.length) (by omega) (by omega)
    · have hg := h4 pos (Nat.le_refl _) hlt
      rw [occCount_succ_false D text _ _ hg]
      exact ih (pos + 1) c (by omega) (by omega) h3
        (fun q hq1 hq2 => h4 q (by omega) hq2)

/-! ### Slicing algebra -/

theorem pySlice_append (text : Str) (a b c : Nat) (h1 : a ≤ b) (h2 : b ≤ c) :
    pySlice text a b ++ pySlice text b c = pySlice text a c := by
  rw [pySlice, pySlice, pySlice]
  have hd : text.drop b = (text.drop a).drop (b - a) := by
    rw [List.drop_drop]
    congr 1
    omega
  rw [hd]
  have hc : c - a = (b - a) + (c - b) := by omega
  rw [hc, List.take_add]

theorem pySlice_append_drop (text : Str) (a b : Nat) (h : a ≤ b) :
    pySlice text a b ++ text.drop b = text.drop a := by
  rw [pySlice]
  have hd : text.drop b = (text.drop a).drop (b - a) := by
    rw [List.drop_drop]
    congr 1
    omega
  rw [hd, List.take_append_drop]

theorem drop_eq_pySlice (text : Str) (a : Nat) :
    text.drop a = pySlice text a text.length := by
  rw [pySlice, ← List.length_drop, List.take_length]

theorem joinD_cons (D s : Str) (l : List Str) (h : l ≠ []) :
    joinD D (s :: l) = s ++ D ++ joinD D l := by
  cases l with
  | nil => exact absurd rfl h
  | cons t ts => rfl

theorem escSplitLoop_nil (text : Str) (b : Bool) (last : Nat) :
    escSplitLoop text b [] last = ([], last) := rfl

theorem escSplitLoop_cons_keep (text : Str) (m : EscMatch) (rest : List EscMatch)
    (last : Nat) :
    escSplitLoop text false (m :: rest) last =
      ((pySlice text m.mstart m.g1e ++ pySlice text m.g1e m.g2e) ::
        (escSplitLoop text false rest m.mEnd).1,
       (escSplitLoop text false rest m.mEnd).2) := by
  rw [escSplitLoop]
  simp

theorem finditerGo_succ_none {M : Type} (mr : Matcher M) (text : Str) (fuel pos : Nat)
    (h : mr.search text pos = none) :
    finditerGo mr text (fuel + 1) pos = [] := by
  rw [finditerGo, h]

theorem finditerGo_succ_some {M : Type} (mr : Matcher M) (text : Str) (fuel pos : Nat)
    (m : M) (h : mr.search text pos = some m) :
    finditerGo mr text (fuel + 1) pos =
      m :: finditerGo mr text fuel
        (if mr.mend m = mr.mstart m then mr.mend m + 1 else mr.mend m) := by
  rw [finditerGo, h]

/-! ### Main invariant of `escaped_split` without empty-segment removal -/

theorem escaped_split_main (D text : Str) (hD : '\\' ∉ D) (hne : D ≠ []) :
    ∀ fuel pos, noEscBefore text pos → text.length + 1 - pos ≤ fuel →
    joinD D ((escSplitLoop text false (finditerGo (escMatcher D) text fuel pos) pos).1 ++
        [text.drop (escSplitLoop text false (finditerGo (escMatcher D) text fuel pos) pos).2]) =
      text.drop pos ∧
    (escSplitLoop text false (finditerGo (escMatcher D) text fuel pos) pos).1.length =
      occCount D text (text.length + 1 - pos) pos := by
  intro fuel
  induction fuel with
  | zero =>
    intro pos hInv hf
    constructor
    · rfl
    · have h0 : text.length + 1 - pos = 0 := by omega
      rw [h0]
      rfl
  | succ fuel ih =>
    intro pos hInv hf
    cases hs : (escMatcher D).search text pos with
    | none =>
      rw [finditerGo_succ_none _ _ _ _ hs]
      constructor
      · rfl
      · rw [occCount_zero D text hne _ pos (escSearch_none_char D text pos hD hne hInv hs)]
        rfl
    | some m =>
      rw [finditerGo_succ_some _ _ _ _ m hs]
      rcases escSearch_some_char D text pos m hD hne hInv hs with
        ⟨hm0, hm1, hm2, hm3, hm4, hm5, hm6⟩
      have hD1 : 1 ≤ D.length := List.length_pos.mpr hne
      have hocc : occursAt D text m.g2e = true := by
        simp [genuineAt] at hm4
        exact hm4.1
      have hnb : (if (escMatcher D).mend m = (escMatcher D).mstart m
          then (escMatcher D).mend m + 1 else (escMatcher D).mend m) = m.mEnd := by
        have he1 : (escMatcher D).mend m = m.mEnd := rfl
        have he2 : (escMatcher D).mstart m = m.mstart := rfl
        rw [he1, he2, if_neg (by omega)]
      rw [hnb]
      have hInv' : noEscBefore text m.mEnd := by
        right
        have hlast : text[m.g2e + D.length - 1]? = D[D.length - 1]? := by
          have hg := occursAt_getElem D text m.g2e hocc (D.length - 1) (by omega)
          have he : m.g2e + (D.length - 1) = m.g2e + D.length - 1 := by omega
          rwa [he] at hg
        rw [hm3, hlast]
        have hidx : D.length - 1 < D.length := by omega
        rw [List.getElem?_eq_getElem hidx]
        intro heq
        have hdd : D[D.length - 1] = '\\' := by injection heq
        exact hD (hdd ▸ List.getElem_mem hidx)
      obtain ⟨ihj, ihl⟩ := ih m.mEnd hInv' (by omega)
      rw [escSplitLoop_cons_keep]
      dsimp only [List.cons_append]
      constructor
      · rw [joinD_cons D _ _ (by simp)]
        rw [ihj]
        rw [hm0, pySlice_append text pos m.g1e m.g2e (hm0 ▸ hm1) hm2, hm3]
        have hrecon : pySlice text pos m.g2e ++ D ++ text.drop (m.g2e + D.length) =
            text.drop pos := by
          have h1 : pySlice text m.g2e (m.g2e + D.length) = D :=
            occursAt_pySlice D text m.g2e hocc
          calc pySlice text pos m.g2e ++ D ++ text.drop (m.g2e + D.length)
              = pySlice text pos m.g2e ++
                (pySlice text m.g2e (m.g2e + D.length) ++ text.drop (m.g2e + D.length)) := by
                rw [h1, List.append_assoc]
            _ = pySlice text pos m.g2e ++ text.drop m.g2e := by
                rw [pySlice_append_drop text m.g2e (m.g2e + D.length) (by omega)]
            _ = text.drop pos := pySlice_append_drop text pos m.g2e (by omega)
        exact hrecon
      · simp only [List.length_cons]
        rw [ihl]
        rw [occCount_step D text hne (text.length + 1 - pos) pos m.g2e (Nat.le_refl _)
          (by omega) hm4 hm6]
        rw [hm3]
        omega

/-! ### Facts about `escSearch` needed across the claims -/

theorem escSearch_basic (D text : Str) (pos : Nat) (m : EscMatch)
    (h : escSearch D text pos = some m) :
    m.mstart = pos ∧ pos ≤ m.g1e ∧ m.g1e ≤ m.g2e ∧ m.mEnd = m.g2e + D.length := by
  rw [escSearch] at h
  cases hs : searchEscFrom D text pos (text.length + 1 - pos) with
  | none =>
    rw [hs] at h
    cases h
  | some pc =>
    rcases pc with ⟨p, c⟩
    rw [hs] at h
    cases h
    dsimp only
    rcases searchEscFrom_some D text _ pos p c hs with ⟨h1, h2, _⟩
    rw [matchAtPos] at h2
    split at h2
    · rcases tryPairs_some D text p _ c h2 with ⟨j, _, hc, _⟩
      exact ⟨rfl, h1, by omega, rfl⟩
    · cases h2

theorem escSearch_parity (D text : Str) (pos : Nat) (m : EscMatch)
    (hD : '\\' ∉ D) (hne : D ≠ [])
    (h : escSearch D text pos = some m) :
    genuineAt D text m.g2e = true ∧ m.g1e = m.g2e - escRun text m.g2e ∧
    escRun text m.g2e = m.g2e - m.g1e := by
  rw [escSearch] at h
  cases hs : searchEscFrom D text pos (text.length + 1 - pos) with
  | none =>
    rw [hs] at h
    cases h
  | some pc =>
    rcases pc with ⟨p, c⟩
    rw [hs] at h
    cases h
    dsimp only
    rcases searchEscFrom_some D text _ pos p c hs with ⟨h1, h2, _⟩
    rcases matchAtPos_genuine D text p c hD hne h2 with ⟨hg, hr, hpc, _⟩
    exact ⟨hg, by omega, by omega⟩

theorem pySlice_replicate_esc (text : Str) (a b : Nat) (hab : a ≤ b)
    (hb : b ≤ text.length) (h : ∀ i, a ≤ i → i < b → text[i]? = some '\\') :
    pySlice text a b = List.replicate (b - a) '\\' := by
  apply List.ext_get?
  intro n
  rw [List.get?_eq_getElem?, List.get?_eq_getElem?]
  by_cases hn : n < b - a
  · rw [pySlice, List.getElem?_take, if_pos hn, List.getElem?_drop,
      List.getElem?_replicate, if_pos hn]
    exact h (a + n) (by omega) (by omega)
  · rw [pySlice, List.getElem?_take, if_neg hn, List.getElem?_replicate, if_neg hn]

/-! ### Helper equations for the `search_for` result shapes -/

theorem search_for_raw_of_neg {M : Type} (mr : Matcher M) (string : Str)
    (k : Int) (hk : k < 0) : search_for mr string k = .raw string := by
  rw [search_for, if_neg (by omega), if_neg (by omega)]

theorem escaped_split_matches (pattern text : Str) (k : Int) (b : Bool)
    (ms : List EscMatch)
    (h : search_for (escMatcher pattern) text k = .matches ms) :
    escaped_split pattern text k b = .ok
      ((escSplitLoop text b ms 0).1 ++
        (if !b || (text.drop (escSplitLoop text b ms 0).2).length ≠ 0
         then [text.drop (escSplitLoop text b ms 0).2] else [])) := by
  rw [escaped_split, h]

theorem escaped_split_zero_false (pattern text : Str) :
    escaped_split pattern text 0 false = .ok
      ((escSplitLoop text false
          (finditerGo (escMatcher pattern) text (text.length + 1) 0) 0).1 ++
        [text.drop (escSplitLoop text false
          (finditerGo (escMatcher pattern) text (text.length + 1) 0) 0).2]) := by
  have hsf : search_for (escMatcher pattern) text 0 =
      .matches (finditerGo (escMatcher pattern) text (text.length + 1) 0) := by
    rw [search_for, if_pos rfl]
  rw [escaped_split_matches pattern text 0 false _ hsf]
  simp

theorem finditerGo_mem_search {M : Type} (mr : Matcher M) (text : Str) :
    ∀ fuel pos m, m ∈ finditerGo mr text fuel pos → ∃ q, mr.search text q = some m := by
  intro fuel
  induction fuel with
  | zero =>
    intro pos m h
    simp [finditerGo] at h
  | succ fuel ih =>
    intro pos m h
    cases hs : mr.search text pos with
    | none =>
      rw [finditerGo_succ_none _ _ _ _ hs] at h
      simp at h
    | some m0 =>
      rw [finditerGo_succ_some _ _ _ _ m0 hs] at h
      rcases List.mem_cons.mp h with he | hmem
      · subst he
        exact ⟨pos, hs⟩
      · exact ih _ m hmem

theorem boundedSearch_mem_search {M : Type} (mr : Matcher M) (text : Str) :
    ∀ n pos m, m ∈ boundedSearch mr text n pos → ∃ q, mr.search text q = some m := by
  intro n
  induction n with
  | zero =>
    intro pos m h
    simp [boundedSearch] at h
  | succ n ih =>
    intro pos m h
    cases hs : mr.search text pos with
    | none =>
      rw [boundedSearch, hs] at h
      simp at h
    | some m0 =>
      rw [boundedSearch, hs] at h
      rcases List.mem_cons.mp h with he | hmem
      · subst he
        exact ⟨pos, hs⟩
      · exact ih _ m hmem

theorem escSplitLoop_cons (text : Str) (b : Bool) (m : EscMatch)
    (rest : List EscMatch) (last : Nat) :
    escSplitLoop text b (m :: rest) last =
      if !b || (pySlice text m.mstart m.g1e).length ≠ 0 then
        ((pySlice text m.mstart m.g1e ++ pySlice text m.g1e m.g2e) ::
          (escSplitLoop text b rest m.mEnd).1,
         (escSplitLoop text b rest m.mEnd).2)
      else escSplitLoop text b rest last := by
  rw [escSplitLoop]

theorem escSplitLoop_slices (text : Str) (b : Bool) :
    ∀ ms last, (∀ m ∈ ms, m.mstart ≤ m.g1e ∧ m.g1e ≤ m.g2e) →
    ∀ s ∈ (escSplitLoop text b ms last).1, ∃ a bb, s = pySlice text a bb := by
  intro ms
  induction ms with
  | nil =>
    intro last _ s hs
    simp [escSplitLoop_nil] at hs
  | cons m rest ih =>
    intro last hms s hs
    rw [escSplitLoop_cons] at hs
    have hm := hms m (by simp)
    split at hs
    · rcases List.mem_cons.mp hs with he | hmem
      · subst he
        exact ⟨m.mstart, m.g2e, pySlice_append text _ _ _ hm.1 hm.2⟩
      · exact ih m.mEnd (fun m' hm' => hms m' (by simp [hm'])) s hmem
    · exact ih last (fun m' hm' => hms m' (by simp [hm'])) s hs

/-! ## The claims -/

/-- C1.  Escape parity decides every delimiter occurrence that the
escape-aware search commits to: whenever the search returns a match, the
escape run ending right before the delimiter occurrence has even length,
group 1 ends exactly where that run starts (so the run — group 2 — is
retained verbatim at the end of the emitted segment, which stops right
before the delimiter), and the match end consumes exactly the delimiter;
an occurrence with an odd escape run is never the delimiter of a returned
match.  In particular `escaped_split(",", "a\\\\,b", 0)` is
`["a\\\\", "b"]` and `escaped_split(",", "a\\,b", 0)` is `["a\\,b"]`
(Python-source notation: one `\\` pair before the comma splits, a lone
`\` does not). -/
theorem escaped_split_parity :
    (∀ (D text : Str) (pos : Nat) (m : EscMatch), '\\' ∉ D → D ≠ [] →
      escSearch D text pos = some m →
      escRun text m.g2e % 2 = 0 ∧ occursAt D text m.g2e = true ∧
      m.g1e = m.g2e - escRun text m.g2e ∧
      pySlice text m.g1e m.g2e = List.replicate (escRun text m.g2e) '\\' ∧
      m.mEnd = m.g2e + D.length) ∧
    (∀ (D text : Str) (pos c : Nat) (m : EscMatch), '\\' ∉ D → D ≠ [] →
      occursAt D text c = true → escRun text c % 2 = 1 →
      escSearch D text pos = some m → m.g2e ≠ c) ∧
    escaped_split (",".data) (("a\\\\,b").data) 0 false =
      .ok [("a\\\\").data, ("b").data] ∧
    escaped_split (",".data) (("a\\,b").data) 0 false = .ok [("a\\,b").data] := by
  refine ⟨?_, ?_, rfl, rfl⟩
  · intro D text pos m hD hne h
    rcases escSearch_basic D text pos m h with ⟨h0, h1, h2, h3⟩
    rcases escSearch_parity D text pos m hD hne h with ⟨h4, h5, h6⟩
    have hocc : occursAt D text m.g2e = true := by
      simp [genuineAt] at h4
      exact h4.1
    have hpar : escRun text m.g2e % 2 = 0 := by
      simp [genuineAt] at h4
      exact h4.2
    refine ⟨hpar, hocc, h5, ?_, h3⟩
    have hlen : m.g2e < text.length := occursAt_lt_length D text m.g2e hocc hne
    have hrep := pySlice_replicate_esc text m.g1e m.g2e h2 (by omega)
      (fun i hi1 hi2 => escRun_all text m.g2e i (by omega) hi2)
    rw [hrep]
    congr 1
    omega
  · intro D text pos c m hD hne hoc hodd h
    rcases escSearch_parity D text pos m hD hne h with ⟨h4, _, _⟩
    have hpar : escRun text m.g2e % 2 = 0 := by
      simp [genuineAt] at h4
      exact h4.2
    intro he
    rw [he] at hpar
    omega

theorem escaped_split_parity_witness :
    escRun (("a\\\\,b").data) 3 % 2 = 0 ∧
    occursAt (",".data) (("a\\\\,b").data) 3 = true ∧
    (1 : Nat) = 3 - escRun (("a\\\\,b").data) 3 ∧
    pySlice (("a\\\\,b").data) 1 3 = List.replicate (escRun (("a\\\\,b").data) 3) '\\' ∧
    (4 : Nat) = 3 + (",".data).length :=
  escaped_split_parity.1 (",".data) (("a\\\\,b").data) 0 ⟨0, 1, 3, 4⟩
    (by decide) (by decide) rfl

/-- C2.  For a literal delimiter (non-empty, not containing the escape
character), `escaped_split` with limit 0 and no empty-segment removal
returns one segment more than the number of genuine (evenly escaped)
delimiter occurrences found by the left-to-right scan, and rejoining the
segments with the delimiter reproduces the input text exactly. -/
theorem escaped_split_count_reconstruct (D text : Str) (hD : '\\' ∉ D) (hne : D ≠ []) :
    ∃ l, escaped_split D text 0 false = .ok l ∧
      l.length = occCount D text (text.length + 1) 0 + 1 ∧
      joinD D l = text := by
  obtain ⟨hj, hl⟩ := escaped_split_main D text hD hne (text.length + 1) 0
    (Or.inl rfl) (by omega)
  refine ⟨_, escaped_split_zero_false D text, ?_, ?_⟩
  · rw [List.length_append, hl]
    simp
  · simpa using hj

theorem escaped_split_count_reconstruct_witness :
    ∃ l, escaped_split (",".data) (("a\\\\,b").data) 0 false = .ok l ∧
      l.length = occCount (",".data) (("a\\\\,b").data)
        ((("a\\\\,b").data).length + 1) 0 + 1 ∧
      joinD (",".data) l = ("a\\\\,b").data :=
  escaped_split_count_reconstruct (",".data) (("a\\\\,b").data) (by decide) (by decide)

/-- C3.  At the failing input `escaped_split(",", "a,b", max_split=-1)` the
code raises `AttributeError`: `search_for` hands back the raw string, the
`for` loop iterates over its characters and calls `.group(1)` on a `str`.
The docstring (and the specification) instead promise that a negative
`max_split` performs no splits and returns a segment list. -/
theorem escaped_split_negative_limit_raises :
    escaped_split (",".data) (("a,b").data) (-1) false = .error ("AttributeError") ∧
    escaped_split (",".data) (("a,b").data) (-1) true = .error ("AttributeError") ∧
    escaped_split (",".data) ([]) (-1) false = .ok [[]] :=
  ⟨rfl, rfl, rfl⟩

/-- C4.  `search_for` with a negative `max_matches` does not search at all
and returns the original input string unchanged — a text, not a match
collection — for every matcher and every text. -/
theorem search_for_negative_returns_raw :
    ∀ (M : Type) (mr : Matcher M) (string : Str) (k : Int), k < 0 →
      search_for mr string k = .raw string :=
  fun _ mr string k hk => search_for_raw_of_neg mr string k hk

theorem search_for_negative_returns_raw_witness :
    search_for (escMatcher (",".data)) (("a,b").data) (-1) = .raw (("a,b").data) :=
  search_for_negative_returns_raw EscMatch (escMatcher (",".data)) (("a,b").data)
    (-1) (by decide)

/-! ### Bounded matching -/

theorem boundedSearch_length {M : Type} (mr : Matcher M) (text : Str) :
    ∀ n pos, (boundedSearch mr text n pos).length ≤ n := by
  intro n
  induction n with
  | zero =>
    intro pos
    simp [boundedSearch]
  | succ n ih =>
    intro pos
    cases h : mr.search text pos with
    | none =>
      rw [boundedSearch, h]
      simp
    | some m =>
      rw [boundedSearch, h]
      simpa using ih (mr.mend m)

/-- C5.  With a positive limit `k`, `search_for` returns a list of at most
`k` matches and raises no error when the text is exhausted early.  In
particular, pattern `x` on text `xxxxx` with `max_matches = 2` yields
exactly two matches with matched text `x` at start offsets 0 and 1, and
with `max_matches = 7` the search stops early at five matches. -/
theorem search_for_bounded_matches :
    (∀ (M : Type) (mr : Matcher M) (text : Str) (k : Int), 0 < k →
      ∃ l, search_for mr text k = .matches l ∧ l.length ≤ k.toNat) ∧
    search_for (reMatcher (litRE ("x".data))) (("xxxxx").data) 2 =
      .matches [⟨0, 1, []⟩, ⟨1, 2, []⟩] ∧
    pySlice (("xxxxx").data) 0 1 = ("x").data ∧
    pySlice (("xxxxx").data) 1 2 = ("x").data ∧
    (∃ l, search_for (reMatcher (litRE ("x".data))) (("xxxxx").data) 7 = .matches l ∧
      l.length = 5) := by
  refine ⟨?_, rfl, rfl, rfl, ⟨_, rfl, rfl⟩⟩
  intro M mr text k hk
  rw [search_for, if_neg (by omega), if_pos hk]
  exact ⟨_, rfl, boundedSearch_length mr text k.toNat 0⟩

theorem search_for_bounded_matches_witness :
    ∃ l, search_for (reMatcher (litRE ("x".data))) (("xxxxx").data) 3 = .matches l ∧
      l.length ≤ (3 : Int).toNat :=
  search_for_bounded_matches.1 RMatch (reMatcher (litRE ("x".data)))
    (("xxxxx").data) 3 (by decide)

/-! ### Monotone offsets -/

theorem boundedSearch_chain {M : Type} (mr : Matcher M) (text : Str)
    (hm : ∀ pos m, mr.search text pos = some m →
      pos ≤ mr.mstart m ∧ mr.mstart m ≤ mr.mend m) :
    ∀ n pos, List.Chain' (fun a b => mr.mend a ≤ mr.mstart b) (boundedSearch mr text n pos) ∧
      ∀ m ∈ boundedSearch mr text n pos, pos ≤ mr.mstart m := by
  intro n
  induction n with
  | zero =>
    intro pos
    constructor
    · simp [boundedSearch]
    · intro m hmem
      simp [boundedSearch] at hmem
  | succ n ih =>
    intro pos
    cases h : mr.search text pos with
    | none =>
      rw [boundedSearch, h]
      constructor
      · simp
      · intro m hmem
        simp at hmem
    | some m =>
      rw [boundedSearch, h]
      obtain ⟨ihc, ihm⟩ := ih (mr.mend m)
      constructor
      · rw [List.chain'_cons']
        exact ⟨fun y hy => ihm y (List.mem_of_mem_head? hy), ihc⟩
      · intro m' hmem
        rcases List.mem_cons.mp hmem with he | hmem'
        · subst he
          exact (hm pos m' h).1
        · have h1 := ihm m' hmem'
          have h2 := hm pos m h
          omega

theorem finditerGo_chain {M : Type} (mr : Matcher M) (text : Str)
    (hm : ∀ pos m, mr.search text pos = some m →
      pos ≤ mr.mstart m ∧ mr.mstart m ≤ mr.mend m) :
    ∀ fuel pos, List.Chain' (fun a b => mr.mend a ≤ mr.mstart b)
        (finditerGo mr text fuel pos) ∧
      ∀ m ∈ finditerGo mr text fuel pos, pos ≤ mr.mstart m := by
  intro fuel
  induction fuel with
  | zero =>
    intro pos
    constructor
    · simp [finditerGo]
    · intro m hmem
      simp [finditerGo] at hmem
  | succ fuel ih =>
    intro pos
    cases h : mr.search text pos with
    | none =>
      rw [finditerGo_succ_none _ _ _ _ h]
      constructor
      · simp
      · intro m hmem
        simp at hmem
    | some m =>
      rw [finditerGo_succ_some _ _ _ _ m h]
      have hpos' : mr.mend m ≤
          (if mr.mend m = mr.mstart m then mr.mend m + 1 else mr.mend m) := by
        split <;> omega
      obtain ⟨ihc, ihm⟩ := ih (if mr.mend m = mr.mstart m then mr.mend m + 1 else mr.mend m)
      constructor
      · rw [List.chain'_cons']
        refine ⟨fun y hy => ?_, ihc⟩
        have := ihm y (List.mem_of_mem_head? hy)
        omega
      · intro m' hmem
        rcases List.mem_cons.mp hmem with he | hmem'
        · subst he
          exact (hm pos m' h).1
        · have h1 := ihm m' hmem'
          have h2 := hm pos m h
          omega

/-- C8.  For limit 0 or a positive limit, the matches that `search_for`
returns come in left-to-right non-overlapping order: each match starts at
or after the end of the previous one, for every matcher whose underlying
`search(text, pos)` only produces matches that start at or after `pos`
(which every `re` pattern satisfies). -/
theorem search_for_monotone_offsets :
    ∀ (M : Type) (mr : Matcher M) (text : Str) (k : Int) (l : List M),
      (∀ pos m, mr.search text pos = some m →
        pos ≤ mr.mstart m ∧ mr.mstart m ≤ mr.mend m) →
      0 ≤ k → search_for mr text k = .matches l →
      List.Chain' (fun a b => mr.mend a ≤ mr.mstart b) l := by
  intro M mr text k l hm hk hsf
  rw [search_for] at hsf
  by_cases h0 : k = 0
  · rw [if_pos h0] at hsf
    cases hsf
    exact (finditerGo_chain mr text hm (text.length + 1) 0).1
  · rw [if_neg h0, if_pos (by omega)] at hsf
    cases hsf
    exact (boundedSearch_chain mr text hm k.toNat 0).1

theorem search_for_monotone_offsets_witness :
    List.Chain'
      (fun a b => (escMatcher (",".data)).mend a ≤ (escMatcher (",".data)).mstart b)
      [(⟨0, 1, 1, 2⟩ : EscMatch), ⟨2, 3, 3, 4⟩] := by
  apply search_for_monotone_offsets EscMatch (escMatcher (",".data)) (("a,b,c").data) 0
  · intro pos m h
    rcases escSearch_basic (",".data) (("a,b,c").data) pos m h with ⟨h0, h1, h2, h3⟩
    constructor
    · show pos ≤ m.mstart
      omega
    · show m.mstart ≤ m.mEnd
      have hl : (",".data).length = 1 := rfl
      omega
  · decide
  · rfl

theorem escSearch_occurs (D text : Str) (pos : Nat) (m : EscMatch)
    (h : escSearch D text pos = some m) : occursAt D text m.g2e = true := by
  rw [escSearch] at h
  cases hs : searchEscFrom D text pos (text.length + 1 - pos) with
  | none =>
    rw [hs] at h
    cases h
  | some pc =>
    rcases pc with ⟨p, c⟩
    rw [hs] at h
    cases h
    dsimp only
    rcases searchEscFrom_some D text _ pos p c hs with ⟨_, h2, _⟩
    rw [matchAtPos] at h2
    split at h2
    · rcases tryPairs_some D text p _ c h2 with ⟨j, _, hc, ho⟩
      exact ho
    · cases h2

theorem boundedSearch_succ_none {M : Type} (mr : Matcher M) (text : Str) (n pos : Nat)
    (h : mr.search text pos = none) :
    boundedSearch mr text (n + 1) pos = [] := by
  rw [boundedSearch, h]

theorem boundedSearch_succ_some {M : Type} (mr : Matcher M) (text : Str) (n pos : Nat)
    (m : M) (h : mr.search text pos = some m) :
    boundedSearch mr text (n + 1) pos = m :: boundedSearch mr text n (mr.mend m) := by
  rw [boundedSearch, h]

theorem escaped_split_bounded_reconstruct (D text : Str) :
    ∀ n pos,
    joinD D ((escSplitLoop text false (boundedSearch (escMatcher D) text n pos) pos).1 ++
        [text.drop
          (escSplitLoop text false (boundedSearch (escMatcher D) text n pos) pos).2]) =
      text.drop pos := by
  intro n
  induction n with
  | zero =>
    intro pos
    rfl
  | succ n ih =>
    intro pos
    cases hs : (escMatcher D).search text pos with
    | none =>
      rw [boundedSearch_succ_none _ _ _ _ hs]
      rfl
    | some m =>
      rw [boundedSearch_succ_some _ _ _ _ m hs]
      have hme : (escMatcher D).mend m = m.mEnd := rfl
      rw [hme]
      rcases escSearch_basic D text pos m hs with ⟨hm0, hm1, hm2, hm3⟩
      have hocc := escSearch_occurs D text pos m hs
      rw [escSplitLoop_cons_keep]
      dsimp only [List.cons_append]
      rw [joinD_cons D _ _ (by simp)]
      rw [ih m.mEnd]
      rw [hm0, pySlice_append text pos m.g1e m.g2e (hm0 ▸ hm1) hm2, hm3]
      calc pySlice text pos m.g2e ++ D ++ text.drop (m.g2e + D.length)
          = pySlice text pos m.g2e ++
            (pySlice text m.g2e (m.g2e + D.length) ++ text.drop (m.g2e + D.length)) := by
            rw [occursAt_pySlice D text m.g2e hocc, List.append_assoc]
        _ = pySlice text pos m.g2e ++ text.drop m.g2e := by
            rw [pySlice_append_drop text m.g2e (m.g2e + D.length) (by omega)]
        _ = text.drop pos := pySlice_append_drop text pos m.g2e (by omega)

theorem reSplitGo_slices (r : RE) (text : Str) (maxsplit : Int) :
    ∀ fuel pos last n s, s ∈ reSplitGo r text maxsplit fuel pos last n →
      ∃ a b, s = pySlice text a b := by
  intro fuel
  induction fuel with
  | zero =>
    intro pos last n s hs
    have hs' : s = text.drop last := by
      simpa [reSplitGo] using hs
    exact ⟨last, text.length, by rw [hs']; exact drop_eq_pySlice text last⟩
  | succ fuel ih =>
    intro pos last n s hs
    rw [reSplitGo] at hs
    split at hs
    · cases hm : reSearchGo r text (text.length + 1 - pos) pos with
      | none =>
        rw [hm] at hs
        have hs' : s = text.drop last := by simpa using hs
        exact ⟨last, text.length, by rw [hs']; exact drop_eq_pySlice text last⟩
      | some m =>
        rw [hm] at hs
        rcases List.mem_cons.mp hs with he | hmem
        · exact ⟨last, m.mstart, he⟩
        · exact ih _ _ _ s hmem
    · have hs' : s = text.drop last := by simpa using hs
      exact ⟨last, text.length, by rw [hs']; exact drop_eq_pySlice text last⟩

theorem unescaped_split_slices (r : RE) (text : Str) (k : Int) (b : Bool) :
    ∀ s ∈ unescaped_split r text k b, ∃ a bb, s = pySlice text a bb := by
  intro s hs
  have hs' : s ∈ reSplit r text k := by
    cases b with
    | false => exact hs
    | true =>
      have hf : s ∈ (reSplit r text k).filter (fun s => decide (s ≠ [])) := hs
      exact List.mem_of_mem_filter hf
  exact reSplitGo_slices r text k _ _ _ _ s hs'

/-- C7 (amended).  The split operations never fabricate characters: every
segment that `unescaped_split` or `escaped_split` returns — for any limit
and either empty-segment policy — is a contiguous substring (a slice) of
the input; with removal disabled, `escaped_split` at any non-negative
limit reconstructs the input exactly when its segments are rejoined with
the delimiter at each split point (a positive limit just makes the
unprocessed rest the final segment); and for `unescaped_split` the
filtered result is exactly the unfiltered result with the (whole) empty
segments dropped.  The original claim's stronger statement — that with
removal enabled only entirely empty segments vanish — fails for
`escaped_split` (see the counterexample): the filter tests only the
prefix group, so a non-empty segment consisting of escape characters can
vanish. -/
theorem split_character_conservation :
    (∀ (r : RE) (text : Str) (k : Int),
      unescaped_split r text k true =
        (unescaped_split r text k false).filter (fun s => decide (s ≠ []))) ∧
    (∀ (r : RE) (text : Str) (k : Int) (b : Bool),
      ∀ s ∈ unescaped_split r text k b, ∃ a bb, s = pySlice text a bb) ∧
    (∀ (D text : Str) (k : Int), '\\' ∉ D → D ≠ [] → 0 ≤ k →
      ∃ l, escaped_split D text k false = .ok l ∧ joinD D l = text) ∧
    (∀ (D text : Str) (k : Int) (b : Bool) (l : List Str), 0 ≤ k →
      escaped_split D text k b = .ok l →
      ∀ s ∈ l, ∃ a bb, s = pySlice text a bb) := by
  refine ⟨fun r text k => rfl, ?_, ?_, ?_⟩
  · intro r text k b
    exact unescaped_split_slices r text k b
  · intro D text k hD hne hk
    by_cases h0 : k = 0
    · subst h0
      obtain ⟨hj, _⟩ := escaped_split_main D text hD hne (text.length + 1) 0
        (Or.inl rfl) (by omega)
      refine ⟨_, escaped_split_zero_false D text, ?_⟩
      simpa using hj
    · have hsf : search_for (escMatcher D) text k =
          .matches (boundedSearch (escMatcher D) text k.toNat 0) := by
        rw [search_for, if_neg h0, if_pos (by omega)]
      refine ⟨_, escaped_split_matches D text k false _ hsf, ?_⟩
      have hb := escaped_split_bounded_reconstruct D text k.toNat 0
      simpa using hb
  · intro D text k b l hk h
    have hms : ∃ ms : List EscMatch, search_for (escMatcher D) text k = .matches ms ∧
        (∀ m ∈ ms, ∃ q, escSearch D text q = some m) := by
      rw [search_for]
      by_cases h0 : k = 0
      · rw [if_pos h0]
        exact ⟨_, rfl, fun m hm => finditerGo_mem_search _ _ _ _ m hm⟩
      · rw [if_neg h0, if_pos (by omega)]
        exact ⟨_, rfl, fun m hm => boundedSearch_mem_search _ _ _ _ m hm⟩
    rcases hms with ⟨ms, hsf, hmem⟩
    rw [escaped_split_matches D text k b ms hsf] at h
    cases h
    intro s hs
    rcases List.mem_append.mp hs with hs1 | hs2
    · apply escSplitLoop_slices text b ms 0 ?_ s hs1
      intro m hm
      rcases hmem m hm with ⟨q, hq⟩
      rcases escSearch_basic D text q m hq with ⟨e0, e1, e2, _⟩
      exact ⟨by omega, e2⟩
    · split at hs2
      · have hse := List.mem_singleton.mp hs2
        subst hse
        exact ⟨_, _, drop_eq_pySlice text _⟩
      · simp at hs2

theorem split_character_conservation_witness :
    ∃ l, escaped_split (",".data) (("x,,y").data) 2 false = .ok l ∧
      joinD (",".data) l = ("x,,y").data :=
  split_character_conservation.2.2.1 (",".data) (("x,,y").data) 2
    (by decide) (by decide) (by decide)
/-- C7 counterexample.  On `"\\\\,y,z"` (Python notation: two literal
backslashes, then `,y,z`) with delimiter `,` and removal enabled, the
segment `"\\\\"` — non-empty, consisting of the retained escape run — is
dropped, because the source tests `len(item.group(1))` only: the filtered
result is not the unfiltered result minus its empty segments. -/
theorem split_empty_filter_counterexample :
    escaped_split (",".data) (("\\\\,y,z").data) 0 true =
      .ok [("y").data, ("z").data] ∧
    escaped_split (",".data) (("\\\\,y,z").data) 0 false =
      .ok [("\\\\").data, ("y").data, ("z").data] ∧
    ¬ ([("y").data, ("z").data] =
        ([("\\\\").data, ("y").data, ("z").data].filter (fun s => decide (s ≠ [])))) :=
  ⟨rfl, rfl, by decide⟩

/-- C9.  `unescaped_split` with `remove_empty_matches = True` drops exactly
the empty segments: the result is the plain result filtered to its
non-empty segments, every surviving segment is non-empty, the relative
order is preserved (the filtered list is a sublist of the plain one), and
on the concrete input `unescaped_split(",", "a,,b")` the results are
`["a", "b"]` and `["a", "", "b"]`. -/
theorem unescaped_split_empty_policy :
    (∀ (r : RE) (text : Str) (k : Int),
      unescaped_split r text k true =
        (unescaped_split r text k false).filter (fun s => decide (s ≠ []))) ∧
    (∀ (r : RE) (text : Str) (k : Int) (s : Str),
      s ∈ unescaped_split r text k true → s ≠ []) ∧
    (∀ (r : RE) (text : Str) (k : Int),
      (unescaped_split r text k true).Sublist (unescaped_split r text k false)) ∧
    unescaped_split (litRE (",".data)) (("a,,b").data) 0 true =
      [("a").data, ("b").data] ∧
    unescaped_split (litRE (",".data)) (("a,,b").data) 0 false =
      [("a").data, [], ("b").data] := by
  refine ⟨fun r text k => rfl, ?_, ?_, rfl, rfl⟩
  · intro r text k s hs
    have hs' : s ∈ (reSplit r text k).filter (fun s => decide (s ≠ [])) := hs
    simpa using (List.mem_filter.mp hs').2
  · intro r text k
    have h : (unescaped_split r text k true).Sublist (reSplit r text k) :=
      List.filter_sublist _
    exact h

theorem unescaped_split_empty_policy_witness : ("a").data ≠ [] :=
  unescaped_split_empty_policy.2.1 (litRE (",".data)) (("a,,b").data) 0
    (("a").data) (by decide)

/-- C10.  `unescaped_search_in_between` with a negative `max_matches` does
not return a list of interior substrings: `search_for` hands back the raw
string, the extractor iterates over its characters and calls `.group` on
each, which raises `AttributeError` on the first character of any
non-empty text; only for the empty text does the loop not run, giving
`[]`. -/
theorem search_in_between_negative_limit :
    ∀ (bg en : RE) (text : Str) (k : Int), k < 0 →
      (text ≠ [] →
        unescaped_search_in_between bg en text k = .error ("AttributeError")) ∧
      (text = [] → unescaped_search_in_between bg en text k = .ok []) := by
  intro bg en text k hk
  have hr : search_for (reMatcher (combineBetween bg en)) text k = .raw text :=
    search_for_raw_of_neg _ _ k hk
  constructor
  · intro hne
    rw [unescaped_search_in_between, hr]
    cases text with
    | nil => exact absurd rfl hne
    | cons c cs => rfl
  · intro he
    subst he
    rw [unescaped_search_in_between, hr]

theorem search_in_between_negative_limit_witness :
    unescaped_search_in_between (litRE (("<").data)) (litRE ((">").data))
      (("ab").data) (-1) = .error ("AttributeError") :=
  (search_in_between_negative_limit (litRE (("<").data)) (litRE ((">").data))
    (("ab").data) (-1) (by decide)).1 (by decide)

/-! ### Group bookkeeping of the pattern engine -/

theorem mrun_capRange (text : Str) :
    ∀ fuel re g0 pos caps p' caps', (p', caps') ∈ mrun text fuel re g0 pos caps →
      ∃ ne_, caps' = ne_ ++ caps ∧ ∀ e ∈ ne_, g0 < e.1 ∧ e.1 ≤ g0 + countGroups re := by
  intro fuel
  induction fuel with
  | zero =>
    intro re g0 pos caps p' caps' h
    simp [mrun] at h
  | succ fuel ih =>
    intro re g0 pos caps p' caps' h
    cases re with
    | eps =>
      simp only [mrun, List.mem_singleton, Prod.mk.injEq] at h
      exact ⟨[], by simp [h.2], by simp⟩
    | anyChar =>
      simp only [mrun] at h
      split at h
      · simp only [List.mem_singleton, Prod.mk.injEq] at h
        exact ⟨[], by simp [h.2], by simp⟩
      · simp at h
    | ch c =>
      simp only [mrun] at h
      split at h
      · simp only [List.mem_singleton, Prod.mk.injEq] at h
        exact ⟨[], by simp [h.2], by simp⟩
      · simp at h
    | cat a b =>
      simp only [mrun] at h
      rw [List.mem_flatMap] at h
      rcases h with ⟨pc, hpc, hmem⟩
      rcases ih a g0 pos caps pc.1 pc.2 hpc with ⟨nA, hA, hAb⟩
      rcases ih b (g0 + countGroups a) pc.1 pc.2 p' caps' hmem with ⟨nB, hB, hBb⟩
      refine ⟨nB ++ nA, ?_, ?_⟩
      · rw [hB, hA, List.append_assoc]
      · intro e he
        rcases List.mem_append.mp he with h1 | h1
        · have := hBb e h1
          simp only [countGroups]
          omega
        · have := hAb e h1
          simp only [countGroups]
          omega
    | alt a b =>
      simp only [mrun] at h
      rcases List.mem_append.mp h with h1 | h1
      · rcases ih a g0 pos caps p' caps' h1 with ⟨nA, hA, hAb⟩
        refine ⟨nA, hA, ?_⟩
        intro e he
        have := hAb e he
        simp only [countGroups]
        omega
      · rcases ih b (g0 + countGroups a) pos caps p' caps' h1 with ⟨nB, hB, hBb⟩
        refine ⟨nB, hB, ?_⟩
        intro e he
        have := hBb e he
        simp only [countGroups]
        omega
    | grp r =>
      simp only [mrun] at h
      rw [List.mem_map] at h
      rcases h with ⟨pc, hpc, heq⟩
      rcases ih r (g0 + 1) pos caps pc.1 pc.2 hpc with ⟨nR, hR, hRb⟩
      have h2 : caps' = (g0 + 1, pos, pc.1) :: pc.2 := by
        have := congrArg Prod.snd heq
        simpa using this.symm
      refine ⟨(g0 + 1, pos, pc.1) :: nR, ?_, ?_⟩
      · rw [h2, hR]
        rfl
      · intro e he
        rcases List.mem_cons.mp he with h1 | h1
        · subst h1
          refine ⟨by simp, ?_⟩
          simp only [countGroups]
          simp
        · have := hRb e h1
          simp only [countGroups]
          omega
    | lazyStar r =>
      simp only [mrun] at h
      rcases List.mem_cons.mp h with h1 | h1
      · have h2 : caps' = caps := by
          have := congrArg Prod.snd h1
          simpa using this
        exact ⟨[], by simp [h2], by simp⟩
      · rw [List.mem_flatMap] at h1
        rcases h1 with ⟨pc, hpc, hmem⟩
        split at hmem
        · simp at hmem
        · rcases ih r g0 pos caps pc.1 pc.2 hpc with ⟨n1, hn1, hb1⟩
          rcases ih (.lazyStar r) g0 pc.1 pc.2 p' caps' hmem with ⟨n2, hn2, hb2⟩
          refine ⟨n2 ++ n1, ?_, ?_⟩
          · rw [hn2, hn1, List.append_assoc]
          · intro e he
            rcases List.mem_append.mp he with h2 | h2
            · have := hb2 e h2
              simp only [countGroups] at this ⊢
              omega
            · have := hb1 e h2
              simp only [countGroups]
              omega

theorem mrun_pos_le (text : Str) :
    ∀ fuel re g0 pos caps p' caps', (p', caps') ∈ mrun text fuel re g0 pos caps →
      pos ≤ p' := by
  intro fuel
  induction fuel with
  | zero =>
    intro re g0 pos caps p' caps' h
    simp [mrun] at h
  | succ fuel ih =>
    intro re g0 pos caps p' caps' h
    cases re with
    | eps =>
      simp only [mrun, List.mem_singleton, Prod.mk.injEq] at h
      omega
    | anyChar =>
      simp only [mrun] at h
      split at h
      · simp only [List.mem_singleton, Prod.mk.injEq] at h
        omega
      · simp at h
    | ch c =>
      simp only [mrun] at h
      split at h
      · simp only [List.mem_singleton, Prod.mk.injEq] at h
        omega
      · simp at h
    | cat a b =>
      simp only [mrun] at h
      rw [List.mem_flatMap] at h
      rcases h with ⟨pc, hpc, hmem⟩
      have h1 := ih a g0 pos caps pc.1 pc.2 hpc
      have h2 := ih b (g0 + countGroups a) pc.1 pc.2 p' caps' hmem
      omega
    | alt a b =>
      simp only [mrun] at h
      rcases List.mem_append.mp h with h1 | h1
      · exact ih a g0 pos caps p' caps' h1
      · exact ih b (g0 + countGroups a) pos caps p' caps' h1
    | grp r =>
      simp only [mrun] at h
      rw [List.mem_map] at h
      rcases h with ⟨pc, hpc, heq⟩
      have h1 := ih r (g0 + 1) pos caps pc.1 pc.2 hpc
      have h2 : p' = pc.1 := by
        have := congrArg Prod.fst heq
        simpa using this.symm
      omega
    | lazyStar r =>
      simp only [mrun] at h
      rcases List.mem_cons.mp h with h1 | h1
      · have : p' = pos := by
          have := congrArg Prod.fst h1
          simpa using this
        omega
      · rw [List.mem_flatMap] at h1
        rcases h1 with ⟨pc, hpc, hmem⟩
        split at hmem
        · simp at hmem
        · have h1 := ih r g0 pos caps pc.1 pc.2 hpc
          have h2 := ih (.lazyStar r) g0 pc.1 pc.2 p' caps' hmem
          omega

theorem reSearchGo_some (r : RE) (text : Str) :
    ∀ fuel pos m, reSearchGo r text fuel pos = some m →
      pos ≤ m.mstart ∧ (m.mEnd, m.caps) ∈ mrun text (mrunFuel r text) r 0 m.mstart [] := by
  intro fuel
  induction fuel with
  | zero =>
    intro pos m h
    cases h
  | succ fuel ih =>
    intro pos m h
    rw [reSearchGo] at h
    cases hm : mrun text (mrunFuel r text) r 0 pos [] with
    | nil =>
      rw [hm] at h
      rcases ih (pos + 1) m h with ⟨h1, h2⟩
      exact ⟨by omega, h2⟩
    | cons pc rest =>
      rw [hm] at h
      cases h
      dsimp only
      refine ⟨Nat.le_refl _, ?_⟩
      rw [hm]
      exact List.mem_cons_self _ _

/-- The pattern `<(a|b)>` of the specification's example, with one
user-supplied capturing group inside the begin pattern. -/
def beginAB : RE := .cat (.ch '<') (.cat (.grp (.alt (.ch 'a') (.ch 'b'))) (.ch '>'))

/-- The pattern `</>` of the specification's example. -/
def endTag : RE := litRE (("</>").data)

/-- C6.  In the combined pattern `begin + "(.*?)" + end` the interior group
receives index `countGroups begin + 1`, and in every match that the search
returns, that group's captured span is exactly the interior: it starts
where a match of `begin` (begun at the match start) ends and ends where a
match of `end` (ending at the match end) begins — so user-supplied groups
inside `begin` never shift which substring is extracted.  In particular
`unescaped_search_in_between("<(a|b)>", "</>", "<a>hello</><b>world</>", 0)`
returns `["hello", "world"]`, not the `(a|b)` captures. -/
theorem search_in_between_group_index :
    (∀ (bg en : RE) (text : Str) (fuel pos : Nat) (m : RMatch),
      reSearchGo (combineBetween bg en) text fuel pos = some m →
      ∃ i j, capFind m.caps (countGroups bg + 1) = some (i, j) ∧
        m.mstart ≤ i ∧ i ≤ j ∧ j ≤ m.mEnd ∧
        (∃ f c1, (i, c1) ∈ mrun text f bg 0 m.mstart []) ∧
        (∃ f cs c2, (m.mEnd, c2) ∈ mrun text f en (countGroups bg + 1) j cs) ∧
        mgroup text m (countGroups bg + 1) = some (pySlice text i j)) ∧
    unescaped_search_in_between beginAB endTag (("<a>hello</><b>world</>").data) 0 =
      .ok [some (("hello").data), some (("world").data)] := by
  refine ⟨?_, rfl⟩
  intro bg en text fuel pos m h
  obtain ⟨hpos, hmem⟩ := reSearchGo_some (combineBetween bg en) text fuel pos m h
  have hFpos : 0 < mrunFuel (combineBetween bg en) text := by
    rw [mrunFuel]
    exact Nat.mul_pos (by omega) (by omega)
  obtain ⟨F, hF⟩ : ∃ F, mrunFuel (combineBetween bg en) text = F + 1 :=
    ⟨_, (Nat.succ_pred_eq_of_pos hFpos).symm⟩
  rw [hF, combineBetween] at hmem
  simp only [mrun, Nat.zero_add] at hmem
  rw [List.mem_flatMap] at hmem
  rcases hmem with ⟨pc1, hpc1, hmem⟩
  obtain ⟨F', rfl⟩ : ∃ F', F = F' + 1 := by
    cases F with
    | zero => simp [mrun] at hmem
    | succ n => exact ⟨n, rfl⟩
  simp only [mrun, countGroups, Nat.zero_add, Nat.add_zero] at hmem
  rw [List.mem_flatMap] at hmem
  rcases hmem with ⟨pc2, hpc2, hmem⟩
  obtain ⟨F2, rfl⟩ : ∃ F2, F' = F2 + 1 := by
    cases F' with
    | zero => simp [mrun] at hpc2
    | succ n => exact ⟨n, rfl⟩
  simp only [mrun] at hpc2
  rw [List.mem_map] at hpc2
  rcases hpc2 with ⟨pc3, hpc3, heq2⟩
  have hpc21 : pc2.1 = pc3.1 := by
    have := congrArg Prod.fst heq2
    simpa using this.symm
  have hpc22 : pc2.2 = (countGroups bg + 1, pc1.1, pc3.1) :: pc3.2 := by
    have := congrArg Prod.snd heq2
    simpa using this.symm
  rcases mrun_capRange text (F2 + 1) en (countGroups bg + 1) pc2.1 pc2.2
      m.mEnd m.caps hmem with ⟨nE, hcapsE, hbE⟩
  rw [hpc22] at hcapsE
  have hcap : capFind m.caps (countGroups bg + 1) = some (pc1.1, pc3.1) := by
    rw [capFind, hcapsE, List.find?_append]
    have h1 : List.find? (fun e => decide (e.1 = countGroups bg + 1)) nE = none := by
      rw [List.find?_eq_none]
      intro x hx
      have := hbE x hx
      simp only [decide_eq_true_eq]
      omega
    rw [h1, List.find?_cons_of_pos _ (by simp)]
    simp
  refine ⟨pc1.1, pc3.1, hcap, ?_, ?_, ?_, ?_, ?_, ?_⟩
  · exact mrun_pos_le text (F2 + 1 + 1) bg 0 m.mstart [] pc1.1 pc1.2 hpc1
  · exact mrun_pos_le text F2 (.lazyStar .anyChar) (countGroups bg + 1) pc1.1 pc1.2
      pc3.1 pc3.2 hpc3
  · have := mrun_pos_le text (F2 + 1) en (countGroups bg + 1) pc2.1 pc2.2
      m.mEnd m.caps hmem
    omega
  · exact ⟨F2 + 1 + 1, pc1.2, hpc1⟩
  · rw [hpc21] at hmem
    exact ⟨F2 + 1, pc2.2, m.caps, hmem⟩
  · rw [mgroup, hcap]
    rfl

theorem search_in_between_group_index_witness :
    ∃ i j, capFind [(2, 3, 8), (1, 1, 2)] (countGroups beginAB + 1) = some (i, j) ∧
      0 ≤ i ∧ i ≤ j ∧ j ≤ 11 ∧
      (∃ f c1, (i, c1) ∈ mrun (("<a>hello</><b>world</>").data) f beginAB 0 0 []) ∧
      (∃ f cs c2, (11, c2) ∈ mrun (("<a>hello</><b>world</>").data) f endTag
        (countGroups beginAB + 1) j cs) ∧
      mgroup (("<a>hello</><b>world</>").data) ⟨0, 11, [(2, 3, 8), (1, 1, 2)]⟩
        (countGroups beginAB + 1) =
        some (pySlice (("<a>hello</><b>world</>").data) i j) :=
  search_in_between_group_index.1 beginAB endTag (("<a>hello</><b>world</>").data)
    23 0 ⟨0, 11, [(2, 3, 8), (1, 1, 2)]⟩ rfl
